import Mathlib

/-!
Verification of the SMOTEWB oversampling core
(`smote_variants/oversampling/_smotewb.py`).

The Python functions are shallowly embedded as Lean functions over lists.
NumPy float arrays are modelled over exact numbers (`ℝ` where the code uses
`exp`/`log`, `ℚ`-instantiable generic fields elsewhere); NumPy uint8 masks are
modelled as `List Bool`, except where the code's use of a uint8 array as an
integer fancy index is itself under scrutiny, in which case the integer
semantics is embedded faithfully.  Randomness (`self.random_state.choice`,
the interpolation gap) and the external collaborators of the pipeline
(scaler, decision-tree weak classifier, nearest-neighbour index, fallback
SMOTE sampler) are modelled as explicit oracle inputs: deterministic
functions supplied to the embedded pipeline.
-/

namespace SmoteWB

/-- Category code for `good` minority samples (`SMOTEWB.sample_good = 1`). -/
def sample_good : Int := 1

/-- Category code for `lonely` minority samples (`SMOTEWB.sample_lonely = 0`). -/
def sample_lonely : Int := 0

/-- Category code for `bad` minority samples (`SMOTEWB.sample_bad = -1`). -/
def sample_bad : Int := -1

/-- NumPy masked assignment `C[fl == v] = tgt`, elementwise over two aligned
lists: positions whose `fl` entry equals `v` receive `tgt`. -/
def masked_set (fl C : List Int) (v tgt : Int) : List Int :=
  List.zipWith (fun f c => if f = v then tgt else c) fl C

/-- Lines 255-257: `C = np.zeros(n_min); C[fl == good] = per; C[fl == lonely] = per`. -/
def quota_init (fl : List Int) (per : Int) : List Int :=
  masked_set fl (masked_set fl (List.replicate fl.length 0) sample_good per) sample_lonely per

/-- Line 246-247: number of `good` plus number of `lonely` minority samples. -/
def n_eligible (fl : List Int) : Nat :=
  fl.countP (fun f => f == sample_good) + fl.countP (fun f => f == sample_lonely)

/-- Line 254: `math.ceil(n_to_sample / n_eligible)` as exact ceiling division. -/
def per_sample (n_to_sample n_elig : Nat) : Nat :=
  (n_to_sample + n_elig - 1) / n_elig

/-- Line 272: `np.where((fl == sample_good) | (fl == sample_bad))[0]` — the
correction pool (note: good and BAD, not good and lonely). -/
def good_and_lonely_ind (fl : List Int) : List Nat :=
  (List.range fl.length).filter (fun i => fl.getD i 0 == sample_good || fl.getD i 0 == sample_bad)

/-- Positional worker for `quota_correct`: entry at absolute position `i`
is decremented exactly once when `i` occurs in `sel` (NumPy fancy-index
assignment `C[sel] -= 1` collapses duplicate indices). -/
def quota_correct_from (sel : List Nat) : Nat → List Int → List Int
  | _, [] => []
  | i, c :: cs => (if i ∈ sel then c - 1 else c) :: quota_correct_from sel (i + 1) cs

/-- Line 274: `C[selected_ind] -= 1` (one decrement per distinct selected index). -/
def quota_correct (C : List Int) (sel : List Nat) : List Int :=
  quota_correct_from sel 0 C

/-- Lines 254-274: quota allocation.  `sel` is the list drawn by
`self.random_state.choice(good_and_lonely_ind, diff, replace=...)`,
supplied as a random-oracle input. -/
def quota_alloc (fl : List Int) (n_to_sample : Nat) (sel : List Nat) : List Int :=
  if 0 < (quota_init fl (per_sample n_to_sample (n_eligible fl) : Nat)).sum - (n_to_sample : Int)
  then quota_correct (quota_init fl (per_sample n_to_sample (n_eligible fl) : Nat)) sel
  else quota_init fl (per_sample n_to_sample (n_eligible fl) : Nat)

/-- Contract of `self.random_state.choice(pool, diff, replace=len(pool) < diff)`
at line 273: the draw has length `diff`, every element comes from the pool,
and when the pool is large enough (`replace=False`) the draw has no repeats. -/
@[reducible] def ValidSel (fl : List Int) (n_to_sample : Nat) (sel : List Nat) : Prop :=
  sel.length = ((quota_init fl (per_sample n_to_sample (n_eligible fl) : Nat)).sum - (n_to_sample : Int)).toNat ∧
  (∀ j ∈ sel, j ∈ good_and_lonely_ind fl) ∧
  ((quota_init fl (per_sample n_to_sample (n_eligible fl) : Nat)).sum - (n_to_sample : Int) ≤ ((good_and_lonely_ind fl).length : Int) → sel.Nodup)

/-- NumPy boolean-mask row selection by label, `arr[y == lbl]` (used at lines
152-153 for the weight vector and at lines 197-198 for the feature rows):
keeps, in order, the entries whose label equals `lbl`. -/
def label_filter {α : Type} (arr : List α) (y : List Nat) (lbl : Nat) : List α :=
  ((arr.zip y).filter (fun p => p.2 == lbl)).map Prod.fst

/-- Lines 132-136 (`SMOTEWB.noise_threshold`): mask that is set exactly where
the weight strictly exceeds the threshold (`noise[w > th] = 1`). -/
def noise_threshold {α : Type} [LinearOrder α] (w : List α) (th : α) : List Bool :=
  w.map (fun x => decide (th < x))

/-- Lines 138-164 (`SMOTEWB.noise_detection`, composed with the boosted weight
vector already computed): split the weights by class and threshold them with
the cross-wired class thresholds `th_min = 2*len(w_maj)/n**2` and
`th_maj = 2*len(w_min)/n**2`. -/
def noise_detection {α : Type} [LinearOrderedField α] (w : List α) (y : List Nat)
    (min_label maj_label : Nat) : List Bool × List Bool :=
  (noise_threshold (label_filter w y min_label)
      ((2 * ((label_filter w y maj_label).length : α)) / (y.length : α) ^ 2),
   noise_threshold (label_filter w y maj_label)
      ((2 * ((label_filter w y min_label).length : α)) / (y.length : α) ^ 2))

/-- Lines 166-169 (`SMOTEWB.first_majority_index` applied to one row):
`np.where(mask.any(), mask.argmax(), invalid_val)` with `mask = y == 0`,
i.e. the index of the first 0 (majority) label, `invalid_val` if none. -/
def first_majority_index (row : List Nat) (invalid_val : Nat) : Nat :=
  if row.any (fun l => l == 0) then row.findIdx (fun l => l == 0) else invalid_val

/-- Lines 235-238: category assignment, embedded exactly as written.  The
masks of the second and third assignments are `k_arr == 0 & noise_mask_min`
and `k_arr == 0 & ~noise_mask_min`, where `&` binds tighter than `==` in
Python and `~` is uint8 complement, so each condition compares `k_arr`
against `0 & m = 0`.  Later masked assignments overwrite earlier ones, hence
the nested `if` tests the line-238 mask first.  The final branch stands for
the indeterminate `np.empty` content (unreachable: `k = 0` or `k > 0`). -/
def fl_assign (k_arr : List Nat) (noise_mask_min : List Bool) : List Int :=
  List.zipWith (fun k b =>
    if k = 0 &&& (255 - (if b then 1 else 0)) then sample_lonely
    else if k = 0 &&& (if b then (1 : Nat) else 0) then sample_bad
    else if 0 < k then sample_good
    else 2) k_arr noise_mask_min

/-- Line 212: `X_not_noise = np.concatenate([X_min[noise_mask_min], X_maj[noise_mask_maj]])`.
The noise masks are uint8 arrays, so NumPy performs INTEGER fancy indexing:
each 0/1 mask value selects row 0 or row 1 of the class matrix (an
out-of-range index, which raises `IndexError` in NumPy, is modelled by the
`getD` default). -/
def x_not_noise {α : Type} (dflt : α) (X_min X_maj : List α)
    (noise_mask_min noise_mask_maj : List Bool) : List α :=
  noise_mask_min.map (fun b => X_min.getD (if b then 1 else 0) dflt) ++
    noise_mask_maj.map (fun b => X_maj.getD (if b then 1 else 0) dflt)

/-- Lines 213-214: labels for the candidate pool, built from the UNFILTERED
class sizes: `n_min` copies of the minority label then `n_maj` copies of the
majority label. -/
def y_not_noise (n_min n_maj min_label maj_label : Nat) : List Nat :=
  List.replicate n_min min_label ++ List.replicate n_maj maj_label

/-- NonNoiseSet as the specification describes it: the minority rows whose
noise mask is false, then the majority rows whose noise mask is false.
Declared only to compare the code's pool against the spec's words. -/
def non_noise_set_spec {α : Type} (X_min X_maj : List α)
    (noise_mask_min noise_mask_maj : List Bool) : List α :=
  ((X_min.zip noise_mask_min).filter (fun p => !p.2)).map Prod.fst ++
    ((X_maj.zip noise_mask_maj).filter (fun p => !p.2)).map Prod.fst

/-- Line 119: elementwise misclassification mask `predicted_labels != y`. -/
def mis_mask (pred y : List Nat) : List Bool :=
  List.zipWith (fun p t => decide (p ≠ t)) pred y

/-- Line 119: `w_error = sum(w[predicted_labels != y])`, the weighted
misclassification error. -/
noncomputable def w_error (w : List ℝ) (mis : List Bool) : ℝ :=
  (List.zipWith (fun wi b => if b then wi else 0) w mis).sum

/-- Line 126: `w[mis] = w[mis] * np.exp(alpha)`. -/
noncomputable def reweight (w : List ℝ) (mis : List Bool) (a : ℝ) : List ℝ :=
  List.zipWith (fun wi b => if b then wi * Real.exp a else wi) w mis

/-- Line 128: `w = w / sum(w)`. -/
noncomputable def normalize (w : List ℝ) : List ℝ :=
  w.map (fun wi => wi / w.sum)

/-- Lines 115-130: the boosting loop of `boosted_weights` (Algorithm 2), with
the decision tree's refit-and-predict modelled by the oracle `predict` (a
deterministic function of the current weights, since `X`, `y` and the tree's
`random_state` are fixed).  If a round's weighted error is exactly 0 the loop
returns `np.zeros(n_samples)` at once; otherwise the misclassified weights
are scaled by `exp(alpha)` with `alpha = 0.5*log((1-w_error)/w_error)` and
the vector is renormalised. -/
noncomputable def boost_loop (predict : List ℝ → List Nat) (y : List Nat) :
    Nat → List ℝ → List ℝ
  | 0, w => w
  | k + 1, w =>
      if w_error w (mis_mask (predict w) y) = 0 then List.replicate y.length 0
      else boost_loop predict y k (normalize (reweight w (mis_mask (predict w) y)
        ((1 / 2) * Real.log ((1 - w_error w (mis_mask (predict w) y)) /
          w_error w (mis_mask (predict w) y)))))

/-- Lines 95-130 (`SMOTEWB.boosted_weights`): start from the uniform vector
`np.repeat(1/n, n)` and run `n_iters` boosting rounds. -/
noncomputable def boosted_weights (predict : List ℝ → List Nat) (y : List Nat)
    (n_iters : Nat) : List ℝ :=
  boost_loop predict y n_iters (List.replicate y.length ((1 : ℝ) / (y.length : ℝ)))

/-- The trace predicate "every executed round has nonzero weighted error":
this is the hypothesis of the normal-completion half of the claim. -/
def no_zero_round (predict : List ℝ → List Nat) (y : List Nat) :
    Nat → List ℝ → Prop
  | 0, _ => True
  | k + 1, w =>
      w_error w (mis_mask (predict w) y) ≠ 0 ∧
      no_zero_round predict y k (normalize (reweight w (mis_mask (predict w) y)
        ((1 / 2) * Real.log ((1 - w_error w (mis_mask (predict w) y)) /
          w_error w (mis_mask (predict w) y)))))

/-- The trace predicate "some executed round has weighted error exactly 0":
the hypothesis of the early-exit half of the claim. -/
def hits_zero (predict : List ℝ → List Nat) (y : List Nat) :
    Nat → List ℝ → Prop
  | 0, _ => False
  | k + 1, w =>
      w_error w (mis_mask (predict w) y) = 0 ∨
      (w_error w (mis_mask (predict w) y) ≠ 0 ∧
        hits_zero predict y k (normalize (reweight w (mis_mask (predict w) y)
          ((1 / 2) * Real.log ((1 - w_error w (mis_mask (predict w) y)) /
            w_error w (mis_mask (predict w) y))))))

/-- Modelled from the spec: `sample_between_points` lives in the external
base class `smote_variants.base.OverSampling` (outside this repository's
sources); per §4.5 (a point "sampled on the segment between the source
sample and the chosen neighbor", a convex combination per §3) it returns,
componentwise, `x + t * (y - x)` for the random gap `t ∈ [0, 1]`, here an
explicit oracle input. -/
noncomputable def sample_between_points (x yv : List ℝ) (t : ℝ) : List ℝ :=
  List.zipWith (fun a b => a + t * (b - a)) x yv

/-- Lines 278-287: synthetic-sample generation for one minority sample `i`.
A `lonely` source emits `C[i]` exact copies of itself; a `good` source with
positive quota takes the slice `nn = indices[i, 1:k_arr[i]]` of its (already
self-sliced) neighbour row, and — when `nn` is non-empty — interpolates
towards each drawn neighbour.  `draws` is the random oracle for
`k_ids = random_state.choice(nn, C[i])` paired with the interpolation gaps. -/
noncomputable def gen_for_sample (fl_i c : Int) (x_i : List ℝ) (pool : List (List ℝ))
    (row : List Nat) (k_i : Nat) (draws : List (Nat × ℝ)) : List (List ℝ) :=
  if fl_i = sample_lonely then List.replicate c.toNat x_i
  else if fl_i = sample_good ∧ 0 < c then
    if 0 < ((row.take k_i).drop 1).length then
      draws.map (fun jt => sample_between_points x_i (pool.getD jt.1 []) jt.2)
    else []
  else []

/-- Lines 277-287: the full generation loop `for i in range(0, n_min)`,
appending each sample's synthetic list in index order. -/
noncomputable def synth_samples (fl C : List Int) (X_min pool : List (List ℝ))
    (indices : List (List Nat)) (k_arr : List Nat)
    (draws : Nat → List (Nat × ℝ)) : List (List ℝ) :=
  ((List.range X_min.length).map (fun i =>
    gen_for_sample (fl.getD i 0) (C.getD i 0) (X_min.getD i []) pool
      (indices.getD i []) (k_arr.getD i 0) (draws i))).flatten

/-- The external collaborators and random draws of `sampling_algorithm`, as
deterministic oracle functions.  A fixed `random_state` makes every one of
them a fixed function: the decision tree is seeded with
`self._random_state_init`, the scaler and neighbour index are deterministic,
and `choice` / `draw_gen` stand for the draws taken from the single seeded
`self.random_state` generator in their fixed program order. -/
structure SmotewbOracles where
  predict : List (List ℝ) → List Nat → List ℝ → List Nat
  scale : List (List ℝ) → List (List ℝ)
  descale : List (List ℝ) → List (List ℝ)
  kneighbors : List (List ℝ) → List (List ℝ) → Nat → List (List Nat)
  choice : List Nat → Nat → Bool → List Nat
  draw_gen : Nat → List Nat → Nat → List (Nat × ℝ)
  fallback : List (List ℝ) → List Nat → List (List ℝ) × List Nat

/-- Lines 171-301 (`SMOTEWB.sampling_algorithm`): the full pipeline.
`n_to_sample` is the value of `self.det_n_to_sample(self.proportion)`
(computed in the external base class); `return_copies`, also external, is
modelled from the spec as returning the input dataset unchanged.  The wiring
follows the source line by line: early exit on `n_to_sample == 0`; scaling;
class split; noise masks from the boosted weights; `k_max =
ceil(n_maj/n_min)`; the (faithfully buggy) integer-indexed candidate pool
and its full-size label vector; self-sliced neighbour rows; per-row first
majority index; category assignment; plain-SMOTE fallback when no sample is
good or lonely; quota allocation with random correction; generation; and the
final stack-and-descale, or an unchanged copy when nothing was generated. -/
noncomputable def sampling_algorithm (orc : SmotewbOracles)
    (min_label maj_label n_iters : Nat) (X : List (List ℝ)) (y : List Nat)
    (n_to_sample : Nat) : List (List ℝ) × List Nat :=
  if n_to_sample = 0 then (X, y)
  else
    let Xs := orc.scale X
    let X_min := label_filter Xs y min_label
    let X_maj := label_filter Xs y maj_label
    let masks := noise_detection (boosted_weights (orc.predict Xs y) y n_iters) y
      min_label maj_label
    let k_max := (X_maj.length + X_min.length - 1) / X_min.length
    let Xnn := x_not_noise ([] : List ℝ) X_min X_maj masks.1 masks.2
    let ynn := y_not_noise X_min.length X_maj.length min_label maj_label
    let indices := (orc.kneighbors Xnn X_min (min Xnn.length (k_max + 1))).map (List.drop 1)
    let k_arr := indices.map (fun r => first_majority_index (r.map (fun j => ynn.getD j 0)) k_max)
    let fl := fl_assign k_arr masks.1
    if fl.countP (fun f => f == sample_good) + fl.countP (fun f => f == sample_lonely) = 0 then
      orc.fallback X y
    else
      let diffn := ((quota_init fl (per_sample n_to_sample (n_eligible fl) : Nat)).sum -
        (n_to_sample : Int)).toNat
      let sel := orc.choice (good_and_lonely_ind fl) diffn ((good_and_lonely_ind fl).length < diffn)
      let C := quota_alloc fl n_to_sample sel
      let synt := synth_samples fl C X_min Xnn indices k_arr
        (fun i => orc.draw_gen i (((indices.getD i []).take (k_arr.getD i 0)).drop 1)
          (C.getD i 0).toNat)
      if synt.length = 0 then (X, y)
      else (orc.descale (Xs ++ synt), y ++ List.replicate synt.length min_label)

/-- A concrete oracle record (identity scaler, constant collaborators) used
only to instantiate the pipeline theorems on closed inputs. -/
def trivial_oracles : SmotewbOracles :=
  ⟨fun _ _ _ => [], fun X => X, fun X => X, fun _ _ _ => [],
   fun _ _ _ => [], fun _ _ _ => [], fun X y => (X, y)⟩

end SmoteWB

namespace SmoteWB

lemma quota_init_eq_map (fl : List Int) (per : Int) :
    quota_init fl per = fl.map (fun f => if f = sample_good ∨ f = sample_lonely then per else 0) := by
  induction fl with
  | nil => rfl
  | cons f fl ih =>
      simp only [quota_init, masked_set, List.length_cons, List.replicate_succ,
        List.zipWith_cons_cons, List.map_cons] at *
      refine congrArg₂ _ ?_ ih
      by_cases h1 : f = sample_lonely <;> by_cases h2 : f = sample_good <;> simp [h1, h2]

lemma quota_init_length (fl : List Int) (per : Int) :
    (quota_init fl per).length = fl.length := by
  rw [quota_init_eq_map]; exact List.length_map _ _

lemma quota_init_sum (fl : List Int) (per : Int) :
    (quota_init fl per).sum = per * (n_eligible fl : Int) := by
  rw [quota_init_eq_map]
  induction fl with
  | nil => simp [n_eligible]
  | cons f fl ih =>
      simp only [List.map_cons, List.sum_cons, ih, n_eligible, List.countP_cons]
      by_cases h1 : f = sample_good
      · have h2 : ¬ f = sample_lonely := by rw [h1]; decide
        simp [h1, h2, sample_good, sample_lonely]
        ring
      · by_cases h2 : f = sample_lonely
        · simp [h1, h2, sample_good, sample_lonely]
          ring
        · have e1 : (f == sample_good) = false := by simp [h1]
          have e2 : (f == sample_lonely) = false := by simp [h2]
          simp [h1, h2, e1, e2, n_eligible]

lemma quota_init_getD (fl : List Int) (per : Int) (j : Nat) (hj : j < fl.length) :
    (quota_init fl per).getD j 0 =
      if fl.getD j 0 = sample_good ∨ fl.getD j 0 = sample_lonely then per else 0 := by
  rw [quota_init_eq_map]
  induction fl generalizing j with
  | nil => simp at hj
  | cons f fl ih =>
      cases j with
      | zero => simp
      | succ j =>
          simp only [List.map_cons, List.getD_cons_succ]
          exact ih j (by simpa using hj)

lemma quota_correct_from_length (sel : List Nat) :
    ∀ (i : Nat) (C : List Int), (quota_correct_from sel i C).length = C.length := by
  intro i C
  induction C generalizing i with
  | nil => rfl
  | cons c cs ih => simp [quota_correct_from, ih]

lemma quota_correct_from_getD (sel : List Nat) :
    ∀ (i : Nat) (C : List Int) (j : Nat), j < C.length →
      (quota_correct_from sel i C).getD j 0 =
        if (i + j) ∈ sel then C.getD j 0 - 1 else C.getD j 0 := by
  intro i C
  induction C generalizing i with
  | nil => intro j hj; simp at hj
  | cons c cs ih =>
      intro j hj
      cases j with
      | zero => simp [quota_correct_from]
      | succ j =>
          have hj2 : j < cs.length := by simpa using hj
          have hidx : i + 1 + j = i + (j + 1) := by omega
          simp only [quota_correct_from, List.getD_cons_succ, ih (i + 1) j hj2, hidx]

lemma quota_correct_from_sum (sel : List Nat) :
    ∀ (i : Nat) (C : List Int),
      (quota_correct_from sel i C).sum =
        C.sum - ((List.range' i C.length).countP (fun j => decide (j ∈ sel)) : Int) := by
  intro i C
  induction C generalizing i with
  | nil => simp [quota_correct_from]
  | cons c cs ih =>
      simp only [quota_correct_from, List.sum_cons, ih (i + 1), List.length_cons,
        List.range'_succ, List.countP_cons]
      by_cases h : i ∈ sel
      · simp only [h]
        simp
        omega
      · simp only [h]
        simp
        omega

lemma countP_range_mem (sel : List Nat) (n : Nat) (hnd : sel.Nodup)
    (hub : ∀ j ∈ sel, j < n) :
    (List.range n).countP (fun j => decide (j ∈ sel)) = sel.length := by
  rw [List.countP_eq_length_filter]
  have hperm : ((List.range n).filter (fun j => decide (j ∈ sel))).Perm sel := by
    apply List.perm_of_nodup_nodup_toFinset_eq
    · exact List.Nodup.filter _ (List.nodup_range n)
    · exact hnd
    · ext a
      simp only [List.mem_toFinset, List.mem_filter, List.mem_range, decide_eq_true_eq]
      exact ⟨fun h => h.2, fun h => ⟨hub a h, h⟩⟩
  exact hperm.length_eq

lemma mem_pool_lt_length (fl : List Int) (j : Nat) (hj : j ∈ good_and_lonely_ind fl) :
    j < fl.length := by
  have := List.mem_filter.mp hj
  exact List.mem_range.mp this.1

lemma per_sample_mul_ge (n e : Nat) (he : 0 < e) : n ≤ per_sample n e * e := by
  unfold per_sample
  have h1 : (n + e - 1) / e < (n + e - 1) / e + 1 := Nat.lt_succ_self _
  have h2 : n + e - 1 < ((n + e - 1) / e + 1) * e := (Nat.div_lt_iff_lt_mul he).mp h1
  have h3 : ((n + e - 1) / e + 1) * e = (n + e - 1) / e * e + e := by ring
  rw [h3] at h2
  omega

/-- C1: the quota invariant as the spec states it is FALSE on the code: when
the correction pool (`good ∪ bad`) is smaller than `diff`, the draw is taken
with replacement and NumPy's fancy-index assignment `C[sel] -= 1` collapses
the duplicate indices, so fewer than `diff` units are removed.  Concretely,
for categories `[good, lonely, lonely]` and `n_to_sample = 4` the pool is the
single good index, the valid replacement draw `[0, 0]` is decremented only
once and the final quota sums to 5, not 4. -/
theorem quota_sum_counterexample :
    0 < n_eligible [sample_good, sample_lonely, sample_lonely] ∧
    ValidSel [sample_good, sample_lonely, sample_lonely] 4 [0, 0] ∧
    (quota_alloc [sample_good, sample_lonely, sample_lonely] 4 [0, 0]).sum ≠ (4 : Int) := by
  decide

/-- C1 (amended): whenever at least one minority sample is good or lonely, the
quota vector has one entry per minority sample and — provided the correction
draw is without replacement (no repeated index) and every drawn index is a
good sample, which is what happens in actual runs, where the correction pool
contains good indices only — its entries are non-negative and sum exactly to
`n_to_sample`. -/
theorem quota_alloc_correct (fl : List Int) (n : Nat) (sel : List Nat)
    (helig : 0 < n_eligible fl) (hv : ValidSel fl n sel) (hnd : sel.Nodup)
    (hgood : ∀ j ∈ sel, fl.getD j 0 = sample_good) :
    (quota_alloc fl n sel).sum = (n : Int) ∧
    (∀ c ∈ quota_alloc fl n sel, 0 ≤ c) ∧
    (quota_alloc fl n sel).length = fl.length := by
  obtain ⟨hlen, hpool, -⟩ := hv
  set e := n_eligible fl with he
  set per := per_sample n e with hper
  have hsum0 : (quota_init fl (per : Int)).sum = (per : Int) * (e : Int) := quota_init_sum fl per
  have hge : (n : Int) ≤ (per : Int) * (e : Int) := by
    have := per_sample_mul_ge n e helig
    exact_mod_cast this
  have hub : ∀ j ∈ sel, j < fl.length := fun j hj => mem_pool_lt_length fl j (hpool j hj)
  by_cases hdiff : 0 < (quota_init fl (per : Int)).sum - (n : Int)
  · -- correction branch
    have halloc : quota_alloc fl n sel = quota_correct (quota_init fl (per : Int)) sel := by
      unfold quota_alloc
      rw [if_pos]
      exact hdiff
    have hlen2 : (quota_correct (quota_init fl (per : Int)) sel).length = fl.length := by
      unfold quota_correct
      rw [quota_correct_from_length, quota_init_length]
    have hcount : ((List.range' 0 (quota_init fl (per : Int)).length).countP
        (fun j => decide (j ∈ sel)) : Int) = (sel.length : Int) := by
      have hrange : List.range' 0 (quota_init fl (per : Int)).length =
          List.range (quota_init fl (per : Int)).length := (List.range_eq_range' _).symm
      rw [hrange, quota_init_length,
        countP_range_mem sel fl.length hnd hub]
    have hsel_eq : (sel.length : Int) = (quota_init fl (per : Int)).sum - (n : Int) := by
      rw [hlen]
      exact Int.toNat_of_nonneg (le_of_lt hdiff)
    have hper_pos : (1 : Int) ≤ (per : Int) := by
      by_contra hc
      push_cast at hc
      have hper0 : per = 0 := by omega
      rw [hsum0, hper0] at hdiff
      simp at hdiff
      omega
    constructor
    · rw [halloc]
      unfold quota_correct
      rw [quota_correct_from_sum, hcount, hsel_eq]
      ring
    constructor
    · rw [halloc]
      intro c hc
      obtain ⟨j, hjlt, hcj⟩ := List.mem_iff_getElem.mp hc
      have hjlt2 : j < (quota_init fl (per : Int)).length := by
        have h1 := quota_init_length fl (per : Int)
        omega
      have hgd : (quota_correct (quota_init fl (per : Int)) sel).getD j 0 = c := by
        rw [List.getD_eq_getElem _ _ hjlt, hcj]
      unfold quota_correct at hgd
      rw [quota_correct_from_getD sel 0 _ j hjlt2, Nat.zero_add] at hgd
      have hjfl : j < fl.length := by rw [← quota_init_length fl (per : Int)]; exact hjlt2
      by_cases hj : j ∈ sel
      · have hflj : fl.getD j 0 = sample_good := hgood j hj
        have : (quota_init fl (per : Int)).getD j 0 = (per : Int) := by
          rw [quota_init_getD fl _ j hjfl, if_pos (Or.inl hflj)]
        rw [if_pos hj, this] at hgd
        omega
      · rw [if_neg hj] at hgd
        rw [quota_init_getD fl _ j hjfl] at hgd
        by_cases hflj : fl.getD j 0 = sample_good ∨ fl.getD j 0 = sample_lonely
        · rw [if_pos hflj] at hgd; omega
        · rw [if_neg hflj] at hgd; omega
    · rw [halloc]; exact hlen2
  · -- no correction: the ceil overshoot is 0 and the initial quota is exact
    have halloc : quota_alloc fl n sel = quota_init fl (per : Int) := by
      unfold quota_alloc
      rw [if_neg]
      exact hdiff
    have hzero : (quota_init fl (per : Int)).sum = (n : Int) := by
      rw [hsum0] at hdiff ⊢
      omega
    refine ⟨by rw [halloc, hzero], ?_, by rw [halloc]; exact quota_init_length fl _⟩
    rw [halloc]
    intro c hc
    rw [quota_init_eq_map] at hc
    obtain ⟨f, -, hf⟩ := List.mem_map.mp hc
    by_cases hcase : f = sample_good ∨ f = sample_lonely
    · rw [if_pos hcase] at hf
      rw [← hf]
      exact_mod_cast Nat.zero_le per
    · rw [if_neg hcase] at hf
      omega

/-- Witness for `quota_alloc_correct`: categories `[good, lonely]` with
`n_to_sample = 3` and the distinct good-only draw `[0]` produce the quota
`[1, 2]`, which sums to 3 with non-negative entries. -/
theorem quota_alloc_correct_witness :
    ValidSel [sample_good, sample_lonely] 3 [0] ∧
    (quota_alloc [sample_good, sample_lonely] 3 [0]).sum = (3 : Int) ∧
    (∀ c ∈ quota_alloc [sample_good, sample_lonely] 3 [0], 0 ≤ c) := by
  refine ⟨by decide, ?_, ?_⟩
  · exact (quota_alloc_correct [sample_good, sample_lonely] 3 [0] (by decide) (by decide)
      (by decide) (by decide)).1
  · exact (quota_alloc_correct [sample_good, sample_lonely] 3 [0] (by decide) (by decide)
      (by decide) (by decide)).2.1

/-- C2: FALSE on the code (the spec states the intended behaviour).  Because
`&` binds tighter than `==` in Python, both masks at lines 237-238 reduce to
`k_arr == 0`, the `sample_bad` assignment at line 237 is dead, and a sample
with `k_i = 0` is categorised `lonely` even when its noise flag is true —
here a single minority sample with `k_arr = [0]` and noise mask `[1]` is
assigned `sample_lonely`, where line 237 meant to assign `sample_bad`. -/
theorem fl_assign_zero_noisy_lonely :
    fl_assign [0] [true] = [sample_lonely] ∧ sample_lonely ≠ sample_bad := by
  decide

/-- C3: FALSE on the code (the comment "non-noise samples and labels" above
line 212 states the intent the spec describes).  The uint8 noise masks are
used as integer fancy indices, so for minority rows `[10, 20]` with noise
mask `[true, false]` the code's pool is `[row 1, row 0] = [20, 10]` — the
noisy row is kept and row order is scrambled — while the spec's NonNoiseSet
is the non-noise rows `[20]`. -/
theorem x_not_noise_deviation :
    x_not_noise (0 : Nat) [10, 20] [] [true, false] [] = [20, 10] ∧
    non_noise_set_spec [10, 20] ([] : List Nat) [true, false] [] = [20] ∧
    x_not_noise (0 : Nat) [10, 20] [] [true, false] [] ≠
      non_noise_set_spec [10, 20] ([] : List Nat) [true, false] [] := by
  decide

lemma findIdx_eq_length_takeWhile {α : Type} (p : α → Bool) (l : List α) :
    l.findIdx p = (l.takeWhile (fun a => !(p a))).length := by
  induction l with
  | nil => rfl
  | cons a l ih =>
      by_cases h : p a = true
      · simp [List.findIdx_cons, List.takeWhile_cons, h]
      · have h2 : p a = false := by simpa using h
        simp [List.findIdx_cons, List.takeWhile_cons, h2, ih]

/-- C4: for a ranked (self-excluded) neighbour label row, the code's
`first_majority_index` returns the index of the first majority (0) label —
equivalently the number of leading minority-labelled neighbours — and
defaults to `invalid_val` (wired to `k_max` at line 232) when no majority
label occurs in the ranking. -/
theorem first_majority_index_spec (row : List Nat) (k_max : Nat) :
    (0 ∈ row →
      first_majority_index row k_max = (row.takeWhile (fun l => !(l == 0))).length) ∧
    (0 ∉ row → first_majority_index row k_max = k_max) := by
  constructor
  · intro hmem
    have hany : row.any (fun l => l == 0) = true := by
      rw [List.any_eq_true]
      exact ⟨0, hmem, by simp⟩
    rw [first_majority_index, if_pos hany, findIdx_eq_length_takeWhile]
  · intro hmem
    have hany : ¬ row.any (fun l => l == 0) = true := by
      rw [List.any_eq_true]
      rintro ⟨x, hx, hx0⟩
      exact hmem (by simpa using (beq_iff_eq.mp hx0) ▸ hx)
    rw [first_majority_index, if_neg hany]

/-- Witness for `first_majority_index_spec`: the label row `[1, 1, 0, 1]`
contains a majority label and its first-majority index is 2, the length of
the leading minority run; the all-minority row `[1, 1]` defaults to 7. -/
theorem first_majority_index_spec_witness :
    (0 ∈ [1, 1, 0, 1] ∧
      first_majority_index [1, 1, 0, 1] 7 =
        (([1, 1, 0, 1] : List Nat).takeWhile (fun l => !(l == 0))).length) ∧
    (0 ∉ [1, 1] ∧ first_majority_index [1, 1] 7 = 7) :=
  ⟨⟨by decide, (first_majority_index_spec [1, 1, 0, 1] 7).1 (by decide)⟩,
   ⟨by decide, (first_majority_index_spec [1, 1] 7).2 (by decide)⟩⟩

lemma noise_threshold_getD {α : Type} [LinearOrder α] (w : List α) (th d : α) :
    ∀ i, i < w.length →
      ((noise_threshold w th).getD i false = true ↔ th < w.getD i d) := by
  induction w with
  | nil => intro i hi; simp at hi
  | cons x xs ih =>
      intro i hi
      cases i with
      | zero => simp [noise_threshold]
      | succ i =>
          have hi2 : i < xs.length := by simpa using hi
          simpa [noise_threshold] using ih i hi2

/-- C6: the minority noise mask is set exactly where the minority-class weight
strictly exceeds `2 * |majority| / n^2`, and the majority noise mask exactly
where the majority-class weight strictly exceeds `2 * |minority| / n^2`
(`n` = total sample count; thresholds cross-wired between the classes). -/
theorem noise_detection_spec {α : Type} [LinearOrderedField α] (w : List α)
    (y : List Nat) (minl majl : Nat) (i : Nat) :
    (i < (label_filter w y minl).length →
      (((noise_detection w y minl majl).1.getD i false = true) ↔
        (2 * ((label_filter w y majl).length : α)) / (y.length : α) ^ 2 <
          (label_filter w y minl).getD i 0)) ∧
    (i < (label_filter w y majl).length →
      (((noise_detection w y minl majl).2.getD i false = true) ↔
        (2 * ((label_filter w y minl).length : α)) / (y.length : α) ^ 2 <
          (label_filter w y majl).getD i 0)) := by
  constructor
  · intro hi
    exact noise_threshold_getD (label_filter w y minl) _ 0 i hi
  · intro hi
    exact noise_threshold_getD (label_filter w y majl) _ 0 i hi

/-- Witness for `noise_detection_spec`: weights `[1/2, 1/4, 1/4]` with labels
`[1, 0, 0]` give minority threshold `2*2/9 = 4/9`, and the single minority
weight `1/2 > 4/9` is flagged noise. -/
theorem noise_detection_spec_witness :
    0 < (label_filter [(1 : ℚ)/2, 1/4, 1/4] [1, 0, 0] 1).length ∧
    ((((noise_detection [(1 : ℚ)/2, 1/4, 1/4] [1, 0, 0] 1 0).1.getD 0 false = true) ↔
        (2 * ((label_filter [(1 : ℚ)/2, 1/4, 1/4] [1, 0, 0] 0).length : ℚ)) /
            (([1, 0, 0] : List Nat).length : ℚ) ^ 2 <
          (label_filter [(1 : ℚ)/2, 1/4, 1/4] [1, 0, 0] 1).getD 0 0)) :=
  ⟨by decide,
   (noise_detection_spec [(1 : ℚ)/2, 1/4, 1/4] [1, 0, 0] 1 0 0).1 (by decide)⟩

lemma sum_map_div (l : List ℝ) (s : ℝ) : (l.map (fun x => x / s)).sum = l.sum / s := by
  induction l with
  | nil => simp
  | cons x xs ih => simp [ih, add_div]

lemma normalize_length (w : List ℝ) : (normalize w).length = w.length := by
  simp [normalize]

lemma normalize_sum (w : List ℝ) (hw : w.sum ≠ 0) : (normalize w).sum = 1 := by
  rw [normalize, sum_map_div, div_self hw]

lemma normalize_pos (w : List ℝ) (hpos : ∀ x ∈ w, 0 < x) (hne : w ≠ []) :
    ∀ x ∈ normalize w, 0 < x := by
  have hsum : 0 < w.sum := List.sum_pos w hpos hne
  intro x hx
  obtain ⟨z, hz, hzx⟩ := List.mem_map.mp hx
  rw [← hzx]
  exact div_pos (hpos z hz) hsum

lemma reweight_length (w : List ℝ) (m : List Bool) (a : ℝ) :
    (reweight w m a).length = min w.length m.length := by
  simp [reweight]

lemma reweight_pos (w : List ℝ) (m : List Bool) (a : ℝ) (hpos : ∀ x ∈ w, 0 < x) :
    ∀ x ∈ reweight w m a, 0 < x := by
  induction w generalizing m with
  | nil => intro x hx; simp [reweight] at hx
  | cons wi ws ih =>
      intro x hx
      cases m with
      | nil => simp [reweight] at hx
      | cons b bs =>
          rw [reweight, List.zipWith_cons_cons] at hx
          rcases List.mem_cons.mp hx with hx0 | hxs
          · rw [hx0]
            cases b
            · simpa using hpos wi (by simp)
            · simp only [if_pos rfl]
              exact mul_pos (hpos wi (by simp)) (Real.exp_pos a)
          · exact ih bs (fun z hz => hpos z (List.mem_cons_of_mem wi hz)) x hxs

lemma mis_mask_length (pred y : List Nat) :
    (mis_mask pred y).length = min pred.length y.length := by
  simp [mis_mask]

lemma boost_loop_inv (predict : List ℝ → List Nat) (y : List Nat)
    (hp : ∀ w, (predict w).length = y.length) (hn : 0 < y.length) :
    ∀ (k : Nat) (w : List ℝ), w.length = y.length → (∀ x ∈ w, 0 < x) →
      w.sum = 1 → no_zero_round predict y k w →
      (∀ x ∈ boost_loop predict y k w, 0 ≤ x) ∧ (boost_loop predict y k w).sum = 1 := by
  intro k
  induction k with
  | zero =>
      intro w hlen hpos hsum _
      exact ⟨fun x hx => le_of_lt (hpos x hx), hsum⟩
  | succ k ih =>
      intro w hlen hpos hsum hnz
      obtain ⟨hne, hrest⟩ := hnz
      rw [boost_loop, if_neg hne]
      set a := (1 / 2) * Real.log ((1 - w_error w (mis_mask (predict w) y)) /
        w_error w (mis_mask (predict w) y)) with ha
      have hmlen : (mis_mask (predict w) y).length = y.length := by
        rw [mis_mask_length, hp w, Nat.min_self]
      have hrlen : (reweight w (mis_mask (predict w) y) a).length = y.length := by
        rw [reweight_length, hlen, hmlen, Nat.min_self]
      have hrpos : ∀ x ∈ reweight w (mis_mask (predict w) y) a, 0 < x :=
        reweight_pos w _ a hpos
      have hrne : reweight w (mis_mask (predict w) y) a ≠ [] := by
        intro hc
        rw [hc] at hrlen
        simp at hrlen
        omega
      have hrsum : (reweight w (mis_mask (predict w) y) a).sum ≠ 0 :=
        ne_of_gt (List.sum_pos _ hrpos hrne)
      exact ih (normalize (reweight w (mis_mask (predict w) y) a))
        (by rw [normalize_length, hrlen])
        (normalize_pos _ hrpos hrne)
        (normalize_sum _ hrsum)
        hrest

lemma boost_loop_zero (predict : List ℝ → List Nat) (y : List Nat) :
    ∀ (k : Nat) (w : List ℝ), hits_zero predict y k w →
      boost_loop predict y k w = List.replicate y.length 0 := by
  intro k
  induction k with
  | zero => intro w hz; exact absurd hz id
  | succ k ih =>
      intro w hz
      rcases hz with h0 | ⟨hne, hz⟩
      · rw [boost_loop, if_pos h0]
      · rw [boost_loop, if_neg hne]
        exact ih _ hz

/-- C5: over exact real arithmetic, if every boosting round has nonzero
weighted error the returned weight vector is componentwise non-negative and
sums exactly to 1, and if some round's weighted error is exactly 0 the loop
returns the all-zero vector of length `n`.  `predict` is the decision-tree
oracle; `hp` is its contract of producing one hard label per sample, and the
code's `assert n_samples > 0` is the hypothesis `hn`. -/
theorem boosted_weights_spec (predict : List ℝ → List Nat) (y : List Nat)
    (n_iters : Nat) (hn : 0 < y.length) (hp : ∀ w, (predict w).length = y.length) :
    (no_zero_round predict y n_iters (List.replicate y.length ((1 : ℝ) / (y.length : ℝ))) →
      (∀ x ∈ boosted_weights predict y n_iters, 0 ≤ x) ∧
      (boosted_weights predict y n_iters).sum = 1) ∧
    (hits_zero predict y n_iters (List.replicate y.length ((1 : ℝ) / (y.length : ℝ))) →
      boosted_weights predict y n_iters = List.replicate y.length 0) := by
  have hcast : (0 : ℝ) < (y.length : ℝ) := by exact_mod_cast hn
  constructor
  · intro hnz
    refine boost_loop_inv predict y hp hn n_iters _ (by simp) ?_ ?_ hnz
    · intro x hx
      rw [List.eq_of_mem_replicate hx]
      exact div_pos one_pos hcast
    · rw [List.sum_replicate, nsmul_eq_mul, mul_one_div, div_self (ne_of_gt hcast)]
  · intro hz
    exact boost_loop_zero predict y n_iters _ hz

/-- Witness for `boosted_weights_spec`: one sample with label 1, one round,
and a tree oracle that always predicts 0, so the round's weighted error is
1 ≠ 0; the returned vector is non-negative and sums to 1. -/
theorem boosted_weights_spec_witness :
    0 < ([1] : List Nat).length ∧
    no_zero_round (fun _ => [0]) [1] 1
      (List.replicate ([1] : List Nat).length ((1 : ℝ) / (([1] : List Nat).length : ℝ))) ∧
    ((∀ x ∈ boosted_weights (fun _ => [0]) [1] 1, 0 ≤ x) ∧
      (boosted_weights (fun _ => [0]) [1] 1).sum = 1) := by
  have hnz : no_zero_round (fun _ => [0]) [1] 1
      (List.replicate ([1] : List Nat).length ((1 : ℝ) / (([1] : List Nat).length : ℝ))) := by
    refine ⟨?_, trivial⟩
    show w_error (List.replicate 1 ((1 : ℝ) / ((1 : Nat) : ℝ)))
      (mis_mask ((fun _ => [0]) (List.replicate 1 ((1 : ℝ) / ((1 : Nat) : ℝ)))) [1]) ≠ 0
    simp [w_error, mis_mask]
  exact ⟨by decide, hnz,
    (boosted_weights_spec (fun _ => [0]) [1] 1 (by decide) (fun _ => rfl)).1 hnz⟩

lemma take_length_takeWhile {α : Type} (p : α → Bool) (l : List α) :
    l.take (l.takeWhile p).length = l.takeWhile p := by
  induction l with
  | nil => rfl
  | cons a as ih =>
      by_cases h : p a = true
      · rw [List.takeWhile_cons, if_pos h]
        simp [ih]
      · rw [List.takeWhile_cons, if_neg h]
        rfl

lemma mem_takeWhile_pred {α : Type} (p : α → Bool) (l : List α) :
    ∀ x ∈ l.takeWhile p, p x = true := by
  induction l with
  | nil => intro x hx; simp at hx
  | cons a as ih =>
      intro x hx
      by_cases h : p a = true
      · rw [List.takeWhile_cons, if_pos h] at hx
        rcases List.mem_cons.mp hx with h1 | h2
        · rw [h1]; exact h
        · exact ih x h2
      · rw [List.takeWhile_cons, if_neg h] at hx
        simp at hx

lemma take_fmi_ne_zero (row labels : List Nat) (k_max : Nat) :
    ∀ j ∈ row.take (first_majority_index (row.map (fun i => labels.getD i 0)) k_max),
      labels.getD j 0 ≠ 0 := by
  intro j hj hzero
  by_cases h0 : (0 : Nat) ∈ row.map (fun i => labels.getD i 0)
  · have hany : (row.map (fun i => labels.getD i 0)).any (fun l => l == 0) = true :=
      List.any_eq_true.mpr ⟨0, h0, by simp⟩
    have hfmi : first_majority_index (row.map (fun i => labels.getD i 0)) k_max =
        ((row.map (fun i => labels.getD i 0)).takeWhile (fun l => !(l == 0))).length := by
      rw [first_majority_index, if_pos hany, findIdx_eq_length_takeWhile]
    rw [hfmi] at hj
    have hmap : labels.getD j 0 ∈
        (row.take ((row.map (fun i => labels.getD i 0)).takeWhile
          (fun l => !(l == 0))).length).map (fun i => labels.getD i 0) :=
      List.mem_map_of_mem _ hj
    rw [List.map_take, take_length_takeWhile] at hmap
    have hpred := mem_takeWhile_pred _ _ _ hmap
    rw [hzero] at hpred
    simp at hpred
  · have hjrow : j ∈ row := List.take_subset _ _ hj
    have hmem : labels.getD j 0 ∈ row.map (fun i => labels.getD i 0) :=
      List.mem_map_of_mem _ hjrow
    rw [hzero] at hmem
    exact h0 hmem

lemma sample_between_points_convex (x : List ℝ) : ∀ (yv : List ℝ) (t : ℝ),
    sample_between_points x yv t =
      List.zipWith (fun a b => (1 - t) * a + t * b) x yv := by
  induction x with
  | nil => intro yv t; rfl
  | cons a xs ih =>
      intro yv t
      cases yv with
      | nil => rfl
      | cons b ys =>
          show (a + t * (b - a)) :: sample_between_points xs ys t = _
          rw [List.zipWith_cons_cons, ih ys t]
          exact congrArg₂ _ (by ring) rfl

/-- C7: every synthetic sample from a `lonely` source equals its source, and
every synthetic sample from a `good` source is a componentwise convex
combination `(1-t)·source + t·neighbour` (a point of the closed segment) of
the source and a drawn neighbour; the drawn neighbour index lies in the
leading prefix `row.take k_i`, whose pooled labels are all minority
(non-majority), because `k_i` is the first-majority index of the row's label
sequence.  `hd` is the contract of `random_state.choice(nn, C[i])` plus the
gap draws of `sample_between_points`. -/
theorem gen_for_sample_spec (fl_i c : Int) (x_i : List ℝ) (pool : List (List ℝ))
    (row labels : List Nat) (k_i k_max : Nat) (draws : List (Nat × ℝ))
    (hki : k_i = first_majority_index (row.map (fun i => labels.getD i 0)) k_max)
    (hd : ∀ jt ∈ draws, jt.1 ∈ (row.take k_i).drop 1 ∧ 0 ≤ jt.2 ∧ jt.2 ≤ 1) :
    ∀ s ∈ gen_for_sample fl_i c x_i pool row k_i draws,
      (fl_i = sample_lonely → s = x_i) ∧
      (fl_i = sample_good → ∃ j t, j ∈ row.take k_i ∧ labels.getD j 0 ≠ 0 ∧
        0 ≤ t ∧ t ≤ 1 ∧ s = sample_between_points x_i (pool.getD j []) t ∧
        s = List.zipWith (fun a b => (1 - t) * a + t * b) x_i (pool.getD j [])) := by
  intro s hs
  rw [gen_for_sample] at hs
  by_cases hl : fl_i = sample_lonely
  · rw [if_pos hl] at hs
    have hsx : s = x_i := List.eq_of_mem_replicate hs
    refine ⟨fun _ => hsx, fun hg => ?_⟩
    rw [hl] at hg
    exact absurd hg (by decide)
  · rw [if_neg hl] at hs
    by_cases hgc : fl_i = sample_good ∧ 0 < c
    · rw [if_pos hgc] at hs
      by_cases hnn : 0 < ((row.take k_i).drop 1).length
      · rw [if_pos hnn] at hs
        obtain ⟨jt, hjt, hsjt⟩ := List.mem_map.mp hs
        obtain ⟨hmem, ht0, ht1⟩ := hd jt hjt
        have hj : jt.1 ∈ row.take k_i := List.drop_subset 1 (row.take k_i) hmem
        have hlbl : labels.getD jt.1 0 ≠ 0 :=
          take_fmi_ne_zero row labels k_max jt.1 (hki ▸ hj)
        exact ⟨fun hlon => absurd hlon hl,
          fun _ => ⟨jt.1, jt.2, hj, hlbl, ht0, ht1, hsjt.symm,
            hsjt.symm.trans (sample_between_points_convex x_i (pool.getD jt.1 []) jt.2)⟩⟩
      · rw [if_neg hnn] at hs
        exact absurd hs (List.not_mem_nil s)
    · rw [if_neg hgc] at hs
      exact absurd hs (List.not_mem_nil s)

/-- Witness for `gen_for_sample_spec`: a good source `[0, 0]` with `k_i = 2`
over the pool `[[1, 2], [3, 4]]` and the single draw `(1, 1/2)` emits the
midpoint towards pool row 1, which lies on the closed segment. -/
theorem gen_for_sample_spec_witness :
    (2 : Nat) = first_majority_index
      (([0, 1] : List Nat).map (fun i => ([1, 1] : List Nat).getD i 0)) 2 ∧
    ((sample_good = sample_lonely →
        sample_between_points [(0 : ℝ), 0] [3, 4] (1/2) = [(0 : ℝ), 0]) ∧
     (sample_good = sample_good → ∃ j t, j ∈ ([0, 1] : List Nat).take 2 ∧
        ([1, 1] : List Nat).getD j 0 ≠ 0 ∧ 0 ≤ t ∧ t ≤ 1 ∧
        sample_between_points [(0 : ℝ), 0] [3, 4] (1/2) =
          sample_between_points [(0 : ℝ), 0] ([[(1 : ℝ), 2], [3, 4]].getD j []) t ∧
        sample_between_points [(0 : ℝ), 0] [3, 4] (1/2) =
          List.zipWith (fun a b => (1 - t) * a + t * b) [(0 : ℝ), 0]
            ([[(1 : ℝ), 2], [3, 4]].getD j []))) := by
  refine ⟨by decide, ?_⟩
  refine gen_for_sample_spec sample_good 1 [(0 : ℝ), 0] [[1, 2], [3, 4]] [0, 1] [1, 1] 2 2
    [(1, (1 : ℝ)/2)] (by decide) ?_ (sample_between_points [(0 : ℝ), 0] [3, 4] (1/2)) ?_
  · intro jt hjt
    have hjteq : jt = (1, (1 : ℝ)/2) := List.mem_singleton.mp hjt
    subst hjteq
    exact ⟨by decide, by norm_num, by norm_num⟩
  · exact List.mem_singleton_self _

/-- C10: for a `good`-categorised source with `k_i = 1`, the neighbour slice
`indices[i, 1:1]` is empty, so the generation loop emits NO synthetic sample
for it, whatever its quota — hence the total number of generated samples can
fall strictly short of `n_to_sample`. -/
theorem gen_k1_no_output (fl_i c : Int) (x_i : List ℝ) (pool : List (List ℝ))
    (row : List Nat) (draws : List (Nat × ℝ)) (hfl : fl_i = sample_good) :
    gen_for_sample fl_i c x_i pool row 1 draws = [] := by
  subst hfl
  rw [gen_for_sample, if_neg (by decide)]
  by_cases hc : sample_good = sample_good ∧ 0 < c
  · rw [if_pos hc]
    have hnn : ((row.take 1).drop 1) = [] := by
      cases row <;> rfl
    rw [hnn]
    simp
  · rw [if_neg hc]

/-- Witness for `gen_k1_no_output`: a good sample with quota 5 and `k_i = 1`
emits nothing, and the whole generation pass produces 0 < 5 samples. -/
theorem gen_k1_no_output_witness :
    sample_good = sample_good ∧
    gen_for_sample sample_good 5 [(0 : ℝ)] [[(1 : ℝ)]] [3, 4, 5] 1 [] = [] ∧
    (synth_samples [sample_good] [5] [[(0 : ℝ)]] [[(1 : ℝ)]] [[3, 4, 5]] [1]
      (fun _ => [])).length < 5 := by
  refine ⟨rfl, gen_k1_no_output sample_good 5 [(0 : ℝ)] [[(1 : ℝ)]] [3, 4, 5] [] rfl, ?_⟩
  have h : synth_samples [sample_good] [5] [[(0 : ℝ)]] [[(1 : ℝ)]] [[3, 4, 5]] [1]
      (fun _ => []) = [] := rfl
  rw [h]
  decide

/-- C8: determinism as a two-run property.  With the external collaborators
and all random draws modelled as deterministic functions of the fixed
`random_state` (the oracle record), two invocations of the embedded pipeline
on equal oracles, inputs and requested counts return equal feature matrices
and equal label vectors. -/
theorem sampling_deterministic (orc1 orc2 : SmotewbOracles)
    (min_label maj_label n_iters : Nat) (X1 X2 : List (List ℝ)) (y1 y2 : List Nat)
    (n1 n2 : Nat) (horc : orc1 = orc2) (hX : X1 = X2) (hy : y1 = y2) (hn : n1 = n2) :
    sampling_algorithm orc1 min_label maj_label n_iters X1 y1 n1 =
      sampling_algorithm orc2 min_label maj_label n_iters X2 y2 n2 := by
  subst horc hX hy hn
  rfl

/-- Witness for `sampling_deterministic`: two identical concrete runs agree. -/
theorem sampling_deterministic_witness :
    sampling_algorithm trivial_oracles 1 0 1 [[(2 : ℝ)]] [1] 3 =
      sampling_algorithm trivial_oracles 1 0 1 [[(2 : ℝ)]] [1] 3 :=
  sampling_deterministic trivial_oracles trivial_oracles 1 0 1 [[(2 : ℝ)]] [[(2 : ℝ)]]
    [1] [1] 3 3 rfl rfl rfl rfl

/-- C9: when the computed number of synthetic samples is 0, the pipeline
returns the input dataset unchanged (the external `return_copies`, modelled
from the spec as an identical copy) and skips every later stage, rather than
raising an error. -/
theorem sampling_zero_request (orc : SmotewbOracles)
    (min_label maj_label n_iters : Nat) (X : List (List ℝ)) (y : List Nat)
    (n_to_sample : Nat) (hn : n_to_sample = 0) :
    sampling_algorithm orc min_label maj_label n_iters X y n_to_sample = (X, y) := by
  subst hn
  rfl

/-- Witness for `sampling_zero_request`: a concrete dataset is returned
verbatim when 0 samples are requested. -/
theorem sampling_zero_request_witness :
    (0 : Nat) = 0 ∧
    sampling_algorithm trivial_oracles 1 0 1 [[(1 : ℝ)], [(2 : ℝ)]] [1, 0] 0 =
      ([[(1 : ℝ)], [(2 : ℝ)]], [1, 0]) :=
  ⟨rfl, sampling_zero_request trivial_oracles 1 0 1 [[(1 : ℝ)], [(2 : ℝ)]] [1, 0] 0 rfl⟩

end SmoteWB
